import Mathlib

/-!
Shallow embedding of `scripts/build-jobs.js` (Blazorise.Jobs feed builder).

The pipeline is modelled faithfully from the JavaScript source:
`parseIssueForm` (heading tokenizer), `normalizeValue` (field normalizer),
the per-field validators, `buildJobs` (record builder / feed assembler),
and the post-fetch part of `main` (`runMain` below).

External runtime facilities that the script calls but that are not part of
the repository are passed in as parameters:
* `purl` models `new URL(value)` and returns the parsed URL's `protocol`
  (lowercased, colon-suffixed, per WHATWG), or `none` when parsing throws;
* `piso` models `new Date(value).toISOString()`, returning `none` when the
  timestamp is invalid (`NaN` time value);
* `schemaOk` models the Ajv schema check of `validateSchema`;
* `today` is the `YYYY-MM-DD` UTC date string that
  `new Date().toISOString().slice(0, 10)` would produce.

JavaScript strings are modelled as Lean `String`; `\s` of the source's
regexes is modelled by the ASCII whitespace class below, `toLowerCase` by
`Char.toLower` (the source only compares ASCII strings).
-/

set_option maxRecDepth 100000

/-- ASCII whitespace, modelling the regex class `\s` and `String.prototype.trim`
for the character range the script actually works with. -/
def isWs (c : Char) : Bool :=
  c == ' ' || c == '\t' || c == '\n' || c == '\r' || c == '\x0b' || c == '\x0c'

/-- Trim leading and trailing whitespace from a character list
(models `String.prototype.trim`). -/
def trimL (cs : List Char) : List Char :=
  ((cs.dropWhile isWs).reverse.dropWhile isWs).reverse

/-- String-level trim, models `value.trim()`. -/
def trimS (s : String) : String :=
  String.mk (trimL s.data)

/-- Lowercasing of a character list, models `String.prototype.toLowerCase`
(ASCII). -/
def lowerLi (cs : List Char) : List Char :=
  cs.map Char.toLower

/-- String-level lowercasing. -/
def lowerS (s : String) : String :=
  String.mk (lowerLi s.data)

/-- Collapse every maximal run of whitespace characters to a single space:
models `value.replace(/\s+/g, " ")`. The boolean flag records whether we are
inside a whitespace run whose replacement space was already emitted. -/
def collapseWs : List Char → Bool → List Char
  | [], _ => []
  | c :: rest, inRun =>
    if isWs c then
      if inRun then collapseWs rest true
      else ' ' :: collapseWs rest true
    else c :: collapseWs rest false

/-- The whitespace-collapsed, lowercased comparison form used by
`normalizeValue` (`trimmed.replace(/\s+/g, " ").toLowerCase()`). -/
def lowerCollapse (s : String) : String :=
  String.mk (lowerLi (collapseWs s.data false))

/-- Models `normalizeValue` of the source: trim; empty stays empty; a value
whose collapsed lowercased form is a "no response" placeholder becomes empty;
otherwise the original trimmed value is returned. -/
def normalizeValue (s : String) : String :=
  if trimS s = "" then ""
  else if lowerCollapse (trimS s) = "_no response_" || lowerCollapse (trimS s) = "no response"
    then ""
  else trimS s

/-- True for the lowercase alphanumeric characters kept by
`normalizeHeading`'s `[^a-z0-9]+` replacement. -/
def isLowerAlnum (c : Char) : Bool :=
  (decide ('a' ≤ c) && decide (c ≤ 'z')) || (decide ('0' ≤ c) && decide (c ≤ '9'))

/-- Collapse every maximal run of non-`[a-z0-9]` characters to a single
space: models `text.replace(/[^a-z0-9]+/g, " ")` (applied after
lowercasing). -/
def collapseNonAlnum : List Char → Bool → List Char
  | [], _ => []
  | c :: rest, inRun =>
    if isLowerAlnum c then c :: collapseNonAlnum rest false
    else
      if inRun then collapseNonAlnum rest true
      else ' ' :: collapseNonAlnum rest true

/-- Models `normalizeHeading`: lowercase, squash non-alphanumeric runs to a
single space, trim. -/
def normalizeHeading (s : String) : String :=
  String.mk (trimL (collapseNonAlnum (lowerLi s.data) false))

/-- The canonical field keys of the FieldMap (the values of
`EXPECTED_HEADINGS`). -/
inductive FieldKey where
  | company | title | location | remote | employmentType | seniority
  | tags | applyUrl | description | salaryRange | contactEmail
  | expiryDate | confirmation
  deriving DecidableEq, Repr

/-- The `EXPECTED_HEADINGS` table: normalized heading phrase → field key. -/
def EXPECTED_HEADINGS : List (String × FieldKey) :=
  [("company name", .company),
   ("role title", .title),
   ("location", .location),
   ("remote", .remote),
   ("employment type", .employmentType),
   ("seniority", .seniority),
   ("tags keywords", .tags),
   ("apply url", .applyUrl),
   ("description", .description),
   ("salary range", .salaryRange),
   ("contact email", .contactEmail),
   ("expiry date", .expiryDate),
   ("confirmation", .confirmation)]

/-- Lookup in the heading table, models `EXPECTED_HEADINGS.get(normalized)`
(`none` when absent). -/
def lookupHeading : List (String × FieldKey) → String → Option FieldKey
  | [], _ => none
  | (h, k) :: rest, s => if h = s then some k else lookupHeading rest s

/-- Models `/^#{2,6}\s+(.+?)\s*$/.exec(line.trim())`, returning the captured
heading text. The regex matches exactly 2–6 leading `#` characters followed
by at least one whitespace character and some non-empty text; on the trimmed
line the capture group is the text after the hash marks with surrounding
whitespace removed. -/
def headingTextOf (line : String) : Option String :=
  let t := trimL line.data
  let n := (t.takeWhile (· == '#')).length
  if 2 ≤ n ∧ n ≤ 6 then
    match t.drop n with
    | [] => none
    | c :: rest =>
      if isWs c then
        let content := trimL (c :: rest)
        if content = [] then none else some (String.mk content)
      else none
  else none

/-- The field key a line's heading resolves to, if the line is a recognized
section heading (`EXPECTED_HEADINGS.get(normalizeHeading(match[1]))`). -/
def headingKeyOf (line : String) : Option FieldKey :=
  match headingTextOf line with
  | none => none
  | some txt => lookupHeading EXPECTED_HEADINGS (normalizeHeading txt)

/-- A line that the heading regex matches but whose normalized text is not in
the heading vocabulary. -/
def isUnrecognizedHeading (line : String) : Bool :=
  match headingTextOf line with
  | none => false
  | some txt => (lookupHeading EXPECTED_HEADINGS (normalizeHeading txt)).isNone

/-- Models `body.split(/\r?\n/)`: split on `\n` or `\r\n`; a lone `\r` stays
inside its line. -/
def splitLinesData : List Char → List Char → List String
  | [], acc => [String.mk acc.reverse]
  | '\r' :: '\n' :: rest, acc => String.mk acc.reverse :: splitLinesData rest []
  | '\n' :: rest, acc => String.mk acc.reverse :: splitLinesData rest []
  | c :: rest, acc => splitLinesData rest (c :: acc)

/-- Line-splitting of a document body. -/
def splitLines (s : String) : List String :=
  splitLinesData s.data []

/-- Models `Array.prototype.join("\n")` on the character level. -/
def joinNLData : List String → List Char
  | [] => []
  | [x] => x.data
  | x :: xs => x.data ++ '\n' :: joinNLData xs

/-- Models `buffer.join("\n")`. -/
def joinNL (l : List String) : String :=
  String.mk (joinNLData l)

/-- The FieldMap: committed `(key, value)` pairs in commit order. The JS
object of `parseIssueForm` is modelled as an association list; the
first-occurrence-wins guard of the source keeps keys unique. -/
abbrev FieldMap := List (FieldKey × String)

/-- First-match association-list lookup (models reading `fields[key]`;
`none` models `undefined`). -/
def lookupF : FieldMap → FieldKey → Option String
  | [], _ => none
  | (k, v) :: rest, key => if k = key then some v else lookupF rest key

/-- The tokenizer's loop state: committed fields, the currently open field
key (`currentKey`) and the accumulated `buffer` lines. -/
structure TokState where
  fields : FieldMap
  currentKey : Option FieldKey
  buffer : List String
  deriving Repr

/-- Models the `commit` closure of `parseIssueForm`: when a field is open and
its key has not been committed yet, append
`normalizeValue(buffer.join("\n").trim())` under that key. -/
def commitState (s : TokState) : TokState :=
  match s.currentKey with
  | none => s
  | some k =>
    if (lookupF s.fields k).isSome then s
    else { s with fields := s.fields ++ [(k, normalizeValue (trimS (joinNL s.buffer)))] }

/-- One iteration of the line loop of `parseIssueForm`: a recognized heading
commits the open buffer and opens its key with a fresh buffer; any other line
(including unrecognized headings) is appended to the buffer when a field is
open and dropped otherwise. -/
def stepLine (s : TokState) (line : String) : TokState :=
  match headingKeyOf line with
  | some k => { fields := (commitState s).fields, currentKey := some k, buffer := [] }
  | none =>
    match s.currentKey with
    | some _ => { s with buffer := s.buffer ++ [line] }
    | none => s

/-- Models `parseIssueForm(body)`: empty body yields an empty map; otherwise
fold the line loop over the split body and commit the final open buffer. -/
def parseIssueForm (body : String) : FieldMap :=
  if body = "" then []
  else (commitState ((splitLines body).foldl stepLine ⟨[], none, []⟩)).fields

/-- Field access with JS falsy semantics: an absent key behaves like the
empty string for every validator (both `undefined` and `""` are falsy). -/
def getField (fields : FieldMap) (k : FieldKey) : String :=
  (lookupF fields k).getD ""

/-- Models `requireValue(value, label, errors)`: empty (or absent, see
`getField`) yields the error `"<label> is required"` and the sentinel `""`;
otherwise the value passes through with no error. The second component is
the list of errors the call pushes. -/
def requireValue (value label : String) : String × List String :=
  if value = "" then ("", [label ++ " is required"]) else (value, [])

/-- Models `value.split(",")`. -/
def splitCommaData : List Char → List Char → List String
  | [], acc => [String.mk acc.reverse]
  | c :: rest, acc =>
    if c == ',' then String.mk acc.reverse :: splitCommaData rest []
    else splitCommaData rest (c :: acc)

/-- Comma-splitting of the raw tags value. -/
def splitComma (s : String) : List String :=
  splitCommaData s.data []

/-- The comma-split, trimmed, empties-dropped tag pieces
(`value.split(",").map(item => item.trim()).filter(Boolean)`). -/
def rawTagItems (value : String) : List String :=
  ((splitComma value).map trimS).filter (· ≠ "")

/-- The `seen`-set dedup loop of `parseTags`: keep an item when its lowercase
key was not seen before, recording keys of kept items. -/
def dedupGo (seen : List String) : List String → List String
  | [] => []
  | x :: xs =>
    if lowerS x ∈ seen then dedupGo seen xs
    else x :: dedupGo (lowerS x :: seen) xs

/-- Models `parseTags(value, errors)`: required check, split/trim/drop,
case-insensitive dedup keeping first-seen casing and order, and the
emptiness check on the result. -/
def parseTags (value : String) : List String × List String :=
  if value = "" then ([], ["Tags/keywords is required"])
  else
    let tags := dedupGo [] (rawTagItems value)
    (tags, if tags.length = 0 then ["Tags/keywords must include at least one value"] else [])

/-- Models `parseRemote(value, errors)`: `{yes, y, true}` / `{no, n, false}`
after trim+lowercase; anything else is an error quoting the raw value.
`none` models the `null` sentinel. -/
def parseRemote (value : String) : Option Bool × List String :=
  if value = "" then (none, ["Remote is required"])
  else
    let normalized := lowerS (trimS value)
    if normalized = "yes" ∨ normalized = "y" ∨ normalized = "true" then (some true, [])
    else if normalized = "no" ∨ normalized = "n" ∨ normalized = "false" then (some false, [])
    else (none, ["Remote must be Yes or No (got \"" ++ value ++ "\")"])

/-- Models `parseApplyUrl(value, errors)`; `purl` stands for the WHATWG URL
parser (`new URL(value)`) and returns the parsed protocol or `none` when
the constructor throws. -/
def parseApplyUrl (purl : String → Option String) (value : String) :
    Option String × List String :=
  if value = "" then (none, ["Apply URL is required"])
  else
    match purl value with
    | none => (none, ["Apply URL must be a valid URL"])
    | some protocol =>
      if protocol ≠ "http:" ∧ protocol ≠ "https:" then
        (none, ["Apply URL must start with http:// or https://"])
      else (some value, [])

/-- Digit test for the date regex `\d`. -/
def isDigitC (c : Char) : Bool :=
  decide ('0' ≤ c) && decide (c ≤ '9')

/-- Models `/^\d{4}-\d{2}-\d{2}$/.test(value)`. -/
def matchesDateFormat (s : String) : Bool :=
  match s.data with
  | [y1, y2, y3, y4, h1, m1, m2, h2, d1, d2] =>
    isDigitC y1 && isDigitC y2 && isDigitC y3 && isDigitC y4 &&
    (h1 == '-') && isDigitC m1 && isDigitC m2 &&
    (h2 == '-') && isDigitC d1 && isDigitC d2
  | _ => false

/-- Numeric value of a digit character. -/
def digitVal (c : Char) : Nat :=
  c.toNat - '0'.toNat

/-- The three numeric components of a `YYYY-MM-DD` string
(`value.split("-").map(Number)` after the format regex passed). -/
def dateComponents (s : String) : Nat × Nat × Nat :=
  match s.data with
  | [y1, y2, y3, y4, _, m1, m2, _, d1, d2] =>
    (digitVal y1 * 1000 + digitVal y2 * 100 + digitVal y3 * 10 + digitVal y4,
     digitVal m1 * 10 + digitVal m2,
     digitVal d1 * 10 + digitVal d2)
  | _ => (0, 0, 0)

/-- Gregorian leap year (the calendar of the JS `Date`). -/
def isLeapYear (y : Nat) : Bool :=
  (y % 4 == 0 && y % 100 != 0) || y % 400 == 0

/-- Days in a month. -/
def daysInMonth (y m : Nat) : Nat :=
  if m = 2 then (if isLeapYear y then 29 else 28)
  else if m = 4 ∨ m = 6 ∨ m = 9 ∨ m = 11 then 30
  else 31

/-- Models the `Date.UTC(year, month - 1, day)` round-trip check of
`parseExpiryDate`: the components survive unchanged exactly when they form a
real calendar date; note that ECMAScript's `Date.UTC` maps years 0–99 to
1900–1999, so four-digit years below `0100` never round-trip. -/
def jsUtcRoundTrips (y m d : Nat) : Bool :=
  decide (100 ≤ y) && decide (1 ≤ m) && decide (m ≤ 12) &&
  decide (1 ≤ d) && decide (d ≤ daysInMonth y m)

/-- Models `parseExpiryDate(value, errors)`: required, format regex, real
calendar date; on success the original string is returned unchanged. -/
def parseExpiryDate (value : String) : Option String × List String :=
  if value = "" then (none, ["Expiry date is required"])
  else if ¬ matchesDateFormat value then (none, ["Expiry date must be in YYYY-MM-DD format"])
  else
    let (y, m, d) := dateComponents value
    if ¬ jsUtcRoundTrips y m d then (none, ["Expiry date must be a valid calendar date"])
    else (some value, [])

/-- Models `/^\s*-\s*\[[xX]\]/.test(line)` on the character level: optional
whitespace, a dash, optional whitespace, then `[x]` or `[X]`. -/
def checkLine (cs : List Char) : Bool :=
  match cs.dropWhile isWs with
  | c1 :: rest =>
    (c1 == '-') &&
      (match rest.dropWhile isWs with
       | c2 :: m :: c4 :: _ => (c2 == '[') && (c4 == ']') && (m == 'x' || m == 'X')
       | _ => false)
  | _ => false

/-- Models `parseConfirmation(value, errors)`: required check, then scan the
lines for a checked checkbox. -/
def parseConfirmation (value : String) : Bool × List String :=
  if value = "" then (false, ["Confirmation checkbox is required"])
  else
    let checked := (splitLines value).any (fun l => checkLine l.data)
    (checked, if checked then [] else ["Confirmation checkbox must be checked"])

/-- Models `toIsoDate(value, label, errors)`; `piso` stands for the JS
runtime's `new Date(value)` / `toISOString()` pair. -/
def toIsoDate (piso : String → Option String) (value label : String) :
    Option String × List String :=
  match piso value with
  | none => (none, ["Issue " ++ label ++ " is not a valid timestamp"])
  | some s => (some s, [])

/-- Lexicographic (code-unit) comparison of character lists, the order JS
`<` uses on strings. -/
def ltCharList : List Char → List Char → Bool
  | [], [] => false
  | [], _ :: _ => true
  | _ :: _, [] => false
  | a :: as, b :: bs => decide (a < b) || ((a == b) && ltCharList as bs)

/-- Lexicographic string comparison (`a < b` of JS on code units). -/
def ltS (a b : String) : Bool :=
  ltCharList a.data b.data

/-- Models `isExpired(expiryDate)`, with today's UTC date passed explicitly:
plain lexicographic string comparison. -/
def isExpired (expiryDate today : String) : Bool :=
  ltS expiryDate today

/-- A raw submission as delivered by the (external) transport layer: the
fields of a GitHub issue that `buildJobs` reads. `body` is nullable. -/
structure Issue where
  number : Nat
  title : String
  body : Option String
  created_at : String
  updated_at : String
  deriving DecidableEq, Repr

/-- One emitted job record, with the exact field set the script pushes onto
`jobs`. `remote`, `applyUrl` and `expiryDate` are extracted below with `getD`
defaults; those defaults are unreachable because the matching validator
pushes an error exactly when it returns the `null` sentinel, and the record
is only built when no error accumulated. -/
structure Job where
  id : Nat
  createdAt : String
  updatedAt : String
  title : String
  company : String
  location : String
  remote : Bool
  employmentType : String
  seniority : String
  tags : List String
  applyUrl : String
  description : String
  salaryRange : Option String
  expiryDate : String
  deriving DecidableEq, Repr

/-- One entry of `invalidIssues`: the failing submission's number, title and
accumulated error list. -/
structure InvalidIssue where
  number : Nat
  title : String
  errors : List String
  deriving DecidableEq, Repr

/-- The full error list one loop iteration of `buildJobs` accumulates for a
submission, in the source's call order (all validators always run; nothing
short-circuits). -/
def issueErrors (purl piso : String → Option String) (issue : Issue) : List String :=
  let fields := parseIssueForm (issue.body.getD "")
  (requireValue (getField fields .company) "Company name").2 ++
  (requireValue (getField fields .title) "Role title").2 ++
  (requireValue (getField fields .location) "Location").2 ++
  (requireValue (getField fields .employmentType) "Employment type").2 ++
  (requireValue (getField fields .seniority) "Seniority").2 ++
  (requireValue (getField fields .description) "Description").2 ++
  (parseTags (getField fields .tags)).2 ++
  (parseRemote (getField fields .remote)).2 ++
  (parseApplyUrl purl (getField fields .applyUrl)).2 ++
  (parseExpiryDate (getField fields .expiryDate)).2 ++
  (parseConfirmation (getField fields .confirmation)).2 ++
  (toIsoDate piso issue.created_at "createdAt").2 ++
  (toIsoDate piso issue.updated_at "updatedAt").2

/-- The three possible fates of one submission inside the `buildJobs` loop. -/
inductive IssueOutcome where
  | invalid : InvalidIssue → IssueOutcome
  | expired : IssueOutcome
  | ok : Job → IssueOutcome
  deriving DecidableEq, Repr

/-- One iteration of the `buildJobs` loop: collect every validator's errors;
a non-empty list records the submission as invalid; otherwise drop it when
expired, else assemble the job record exactly as the source pushes it. -/
def buildOne (purl piso : String → Option String) (today : String) (issue : Issue) :
    IssueOutcome :=
  let fields := parseIssueForm (issue.body.getD "")
  let errs := issueErrors purl piso issue
  if errs = [] then
    let expiry := (parseExpiryDate (getField fields .expiryDate)).1.getD ""
    if isExpired expiry today then .expired
    else .ok {
      id := issue.number
      createdAt := (toIsoDate piso issue.created_at "createdAt").1.getD ""
      updatedAt := (toIsoDate piso issue.updated_at "updatedAt").1.getD ""
      title := (requireValue (getField fields .title) "Role title").1
      company := (requireValue (getField fields .company) "Company name").1
      location := (requireValue (getField fields .location) "Location").1
      remote := (parseRemote (getField fields .remote)).1.getD false
      employmentType := (requireValue (getField fields .employmentType) "Employment type").1
      seniority := (requireValue (getField fields .seniority) "Seniority").1
      tags := (parseTags (getField fields .tags)).1
      applyUrl := (parseApplyUrl purl (getField fields .applyUrl)).1.getD ""
      description := (requireValue (getField fields .description) "Description").1
      salaryRange := if getField fields .salaryRange ≠ "" then some (getField fields .salaryRange) else none
      expiryDate := expiry
    }
  else .invalid ⟨issue.number, issue.title, errs⟩

/-- The result record of `buildJobs`. -/
structure BuildResult where
  jobs : List Job
  invalidIssues : List InvalidIssue
  expiredCount : Nat
  deriving DecidableEq, Repr

/-- Models `buildJobs(issues)`. -/
def buildJobs (purl piso : String → Option String) (today : String)
    (issues : List Issue) : BuildResult :=
  issues.foldl
    (fun acc issue =>
      match buildOne purl piso today issue with
      | .invalid item => { acc with invalidIssues := acc.invalidIssues ++ [item] }
      | .expired => { acc with expiredCount := acc.expiredCount + 1 }
      | .ok j => { acc with jobs := acc.jobs ++ [j] })
    ⟨[], [], 0⟩

/-- Stable descending insertion by `updatedAt`: the new element goes after
every element whose key is not smaller. -/
def insertDesc (x : Job) : List Job → List Job
  | [] => [x]
  | y :: ys =>
    if ltS y.updatedAt x.updatedAt then x :: y :: ys
    else y :: insertDesc x ys

/-- Models `jobs.sort((a, b) => b.updatedAt.localeCompare(a.updatedAt))`:
ECMAScript's `Array.prototype.sort` is stable, and `localeCompare` on the
builder's ISO-8601 timestamps coincides with code-unit (lexicographic)
order; a stable insertion sort realizes exactly that. -/
def sortJobs (l : List Job) : List Job :=
  l.foldl (fun acc x => insertDesc x acc) []

/-- One line of the failure report:
`#<number> <title>: <error1>; <error2>; ...`. -/
def joinSep (sep : String) : List String → String
  | [] => ""
  | [x] => x
  | x :: xs => x ++ sep ++ joinSep sep xs

/-- The per-submission report line built in `main`. -/
def reportLine (item : InvalidIssue) : String :=
  "#" ++ toString item.number ++ " " ++ item.title ++ ": " ++ joinSep ("; ") item.errors

/-- The aggregated failure message `main` throws when any submission is
invalid. -/
def invalidReport (items : List InvalidIssue) : String :=
  "Invalid approved job issues:\n" ++ joinSep ("\n") (items.map reportLine)

/-- Observable effects of one run: the feed file write and a fatal halt
(thrown error). The Ajv error details of `validateSchema` are external, so
the halt message for a schema failure is kept to its fixed prefix. -/
inductive Effect where
  | wroteFeed : List Job → Effect
  | halted : String → Effect
  deriving DecidableEq, Repr

/-- The post-fetch core of `main`, as the ordered list of effects it
performs: build, gate on invalid submissions, sort, write the feed file and
only then validate it against the schema (`fs.writeFileSync` on line 395
precedes `validateSchema` on line 397 of the source). -/
def runMain (purl piso : String → Option String) (today : String)
    (schemaOk : List Job → Bool) (issues : List Issue) : List Effect :=
  let r := buildJobs purl piso today issues
  if r.invalidIssues ≠ [] then
    [.halted (invalidReport r.invalidIssues)]
  else
    let sorted := sortJobs r.jobs
    if schemaOk sorted then [.wroteFeed sorted]
    else [.wroteFeed sorted, .halted ("Schema validation failed")]

/-- Modelled from the spec: the pass condition of claim C8's wording for the
confirmation checkbox — some line whose *trimmed* content starts with the
five characters `- [x]` or `- [X]` (compared with the source's more liberal
regex `/^\s*-\s*\[[xX]\]/`). -/
def startsWithL : List Char → List Char → Bool
  | [], _ => true
  | _ :: _, [] => false
  | c :: cs, d :: ds => (c == d) && startsWithL cs ds

/-- Modelled from the spec: claim C8's stated acceptance test. -/
def specConfirmPass (v : String) : Bool :=
  (splitLines v).any fun l =>
    startsWithL ("- [x]".data) (trimL l.data) || startsWithL ("- [X]".data) (trimL l.data)

/-- Substring occurrence test (`containsSeg needle hay`). -/
def containsSeg : List Char → List Char → Bool
  | n, [] => startsWithL n []
  | n, d :: ds => startsWithL n (d :: ds) || containsSeg n ds

/-- A concrete URL-parser instantiation for witnesses: parses the one apply
URL used by the sample submissions. -/
def purlSample : String → Option String :=
  fun s => if s = "https://example.com/apply" then some ("https:") else none

/-- A concrete timestamp-parser instantiation for witnesses: the sample
timestamps are already canonical ISO-8601 strings, on which
`new Date(s).toISOString()` is the identity. -/
def pisoSample : String → Option String :=
  fun s => some s

/-- A fully valid issue-form body (every required section present). -/
def goodBody : String :=
  "## Company Name\nAcme\n## Role Title\nDev\n## Location\nBerlin\n## Remote\nYes\n## Employment Type\nFull-time\n## Seniority\nSenior\n## Tags/Keywords\nblazor\n## Apply URL\nhttps://example.com/apply\n## Description\nGreat\n## Expiry Date\n2099-01-01\n## Confirmation\n- [x] yes"

/-- A valid sample submission. -/
def goodIssue : Issue :=
  { number := 7
    title := "Acme: Dev"
    body := some goodBody
    created_at := "2024-01-01T00:00:00.000Z"
    updated_at := "2024-01-02T00:00:00.000Z" }

/-- A submission with an empty body: every field validator fails. -/
def emptyIssue : Issue :=
  { number := 1
    title := "Broken"
    body := none
    created_at := "2024-01-01T00:00:00.000Z"
    updated_at := "2024-01-01T00:00:00.000Z" }

/-- The body used by the duplicate-heading examples: the `Company Name`
heading appears twice and an unrecognized heading sits in the duplicate's
(discarded) section. -/
def dupBody : String :=
  "## Company Name\nAcme\n## Company Name\nGlobex\n## Location\nBerlin"

/-- The job record `buildJobs` assembles from `goodIssue`. -/
def goodJob : Job :=
  { id := 7
    createdAt := "2024-01-01T00:00:00.000Z"
    updatedAt := "2024-01-02T00:00:00.000Z"
    title := "Dev"
    company := "Acme"
    location := "Berlin"
    remote := true
    employmentType := "Full-time"
    seniority := "Senior"
    tags := ["blazor"]
    applyUrl := "https://example.com/apply"
    description := "Great"
    salaryRange := none
    expiryDate := "2099-01-01" }

/-- A minimal job record with a given id and `updatedAt`, for the sort
examples. -/
def mkSortJob (id : Nat) (updatedAt : String) : Job :=
  { id := id
    createdAt := "2024-01-01T00:00:00.000Z"
    updatedAt := updatedAt
    title := "T"
    company := "C"
    location := "L"
    remote := true
    employmentType := "E"
    seniority := "S"
    tags := ["t"]
    applyUrl := "https://example.com/apply"
    description := "D"
    salaryRange := none
    expiryDate := "2099-01-01" }

/-- Sort example record A. -/
def jobA : Job := mkSortJob 1 ("2024-01-02T00:00:00.000Z")

/-- Sort example record B. -/
def jobB : Job := mkSortJob 2 ("2024-01-03T00:00:00.000Z")

/-- Sort example record C. -/
def jobC : Job := mkSortJob 3 ("2024-01-02T00:00:00.000Z")

/-- A body whose duplicate `Company Name` section contains an unrecognized
heading line: that line lands in the discard sink, not in any committed
value. -/
def dupWeirdBody : String :=
  "## Company Name\nA\n## Company Name\n### Weird\nB"

/-!
Theorems. Claim theorems are named `cN_...`; everything else is a helper
lemma shared across proofs.
-/

theorem lookupF_append_left {l l2 : FieldMap} {k : FieldKey} {v : String}
    (h : lookupF l k = some v) : lookupF (l ++ l2) k = some v := by
  induction l with
  | nil => simp [lookupF] at h
  | cons p rest ih =>
    obtain ⟨k', v'⟩ := p
    by_cases hk : k' = k
    · simp only [List.cons_append, lookupF, if_pos hk] at h ⊢
      exact h
    · simp only [List.cons_append, lookupF, if_neg hk] at h ⊢
      exact ih h

theorem lookupF_append_self {l : FieldMap} {k : FieldKey} {v : String}
    (h : lookupF l k = none) : lookupF (l ++ [(k, v)]) k = some v := by
  induction l with
  | nil => simp [lookupF]
  | cons p rest ih =>
    obtain ⟨k', v'⟩ := p
    by_cases hk : k' = k
    · simp only [lookupF, if_pos hk] at h
      exact absurd h (by simp)
    · simp only [List.cons_append, lookupF, if_neg hk] at h ⊢
      exact ih h

theorem not_mem_of_lookupF_none {l : FieldMap} {k : FieldKey}
    (h : lookupF l k = none) : k ∉ l.map Prod.fst := by
  induction l with
  | nil => simp
  | cons p rest ih =>
    obtain ⟨k', v'⟩ := p
    simp only [lookupF] at h
    split at h
    · exact absurd h (by simp)
    · simp_all [eq_comm]

theorem lookupF_commit {s : TokState} {k : FieldKey} {v : String}
    (h : lookupF s.fields k = some v) : lookupF (commitState s).fields k = some v := by
  unfold commitState
  cases s.currentKey with
  | none => exact h
  | some k' =>
    simp only
    split
    · exact h
    · exact lookupF_append_left h

theorem lookupF_stepLine {s : TokState} {line : String} {k : FieldKey} {v : String}
    (h : lookupF s.fields k = some v) : lookupF (stepLine s line).fields k = some v := by
  unfold stepLine
  cases headingKeyOf line with
  | some k' => exact lookupF_commit h
  | none =>
    cases s.currentKey with
    | some k' => exact h
    | none => exact h

theorem lookupF_foldl {lines : List String} {s : TokState} {k : FieldKey} {v : String}
    (h : lookupF s.fields k = some v) :
    lookupF (lines.foldl stepLine s).fields k = some v := by
  induction lines generalizing s with
  | nil => exact h
  | cons line rest ih => exact ih (lookupF_stepLine h)

theorem nodup_commit {s : TokState}
    (h : (s.fields.map Prod.fst).Nodup) : ((commitState s).fields.map Prod.fst).Nodup := by
  unfold commitState
  cases hk : s.currentKey with
  | none => exact h
  | some k =>
    simp only
    split
    · exact h
    · rename_i hnone
      have hnone' : lookupF s.fields k = none := by
        cases hcase : lookupF s.fields k <;> simp_all
      have hmem := not_mem_of_lookupF_none hnone'
      simp [List.nodup_append, h, hmem]

theorem nodup_stepLine {s : TokState} {line : String}
    (h : (s.fields.map Prod.fst).Nodup) :
    ((stepLine s line).fields.map Prod.fst).Nodup := by
  unfold stepLine
  cases headingKeyOf line with
  | some k => exact nodup_commit h
  | none =>
    cases s.currentKey with
    | some k' => exact h
    | none => exact h

theorem nodup_foldl {lines : List String} {s : TokState}
    (h : (s.fields.map Prod.fst).Nodup) :
    (((lines.foldl stepLine s).fields).map Prod.fst).Nodup := by
  induction lines generalizing s with
  | nil => exact h
  | cons line rest ih => exact ih (nodup_stepLine h)

/-- Claim C4: the tokenizer maps each canonical field key at most once and
the first occurrence wins. The committed FieldMap has pairwise distinct keys
for every body; once a key is committed its value survives any further
processing unchanged (so duplicate headings never append to or overwrite an
already committed field); and on the concrete duplicate-`Company Name` body
the first occurrence's content is kept while the duplicate's content
`Globex` is consumed but discarded. -/
theorem c4_first_heading_wins :
    (∀ body : String, ((parseIssueForm body).map Prod.fst).Nodup) ∧
    (∀ (s : TokState) (lines : List String) (k : FieldKey) (v : String),
      lookupF s.fields k = some v →
      lookupF (commitState (lines.foldl stepLine s)).fields k = some v) ∧
    parseIssueForm dupBody = [(FieldKey.company, "Acme"), (FieldKey.location, "Berlin")] := by
  refine ⟨?_, ?_, by decide⟩
  · intro body
    unfold parseIssueForm
    split
    · simp
    · exact nodup_commit (nodup_foldl (by simp))
  · intro s lines k v h
    exact lookupF_commit (lookupF_foldl h)

/-- Witness for C4 at a concrete committed state: a later duplicate
`Company Name` heading and its content leave the committed value intact. -/
theorem c4_first_heading_wins_witness :
    lookupF (commitState (["## Company Name", "Globex"].foldl stepLine
      ⟨[(FieldKey.company, "Acme")], none, []⟩)).fields FieldKey.company = some ("Acme") :=
  c4_first_heading_wins.2.1 ⟨[(FieldKey.company, "Acme")], none, []⟩
    ["## Company Name", "Globex"] FieldKey.company "Acme" (by decide)

theorem mem_dedupGo {seen : List String} {l : List String} {y : String}
    (h : y ∈ dedupGo seen l) : y ∈ l ∧ lowerS y ∉ seen := by
  induction l generalizing seen with
  | nil => simp [dedupGo] at h
  | cons x xs ih =>
    by_cases hx : lowerS x ∈ seen
    · simp only [dedupGo, if_pos hx] at h
      have := ih h
      exact ⟨List.mem_cons_of_mem x this.1, this.2⟩
    · simp only [dedupGo, if_neg hx] at h
      rcases List.mem_cons.mp h with rfl | hmem
      · exact ⟨List.mem_cons_self _ _, hx⟩
      · have := ih hmem
        refine ⟨List.mem_cons_of_mem x this.1, ?_⟩
        intro hc
        exact this.2 (List.mem_cons_of_mem _ hc)

theorem pairwise_dedupGo {seen : List String} {l : List String} :
    (dedupGo seen l).Pairwise (fun a b => lowerS a ≠ lowerS b) := by
  induction l generalizing seen with
  | nil => simp [dedupGo]
  | cons x xs ih =>
    by_cases hx : lowerS x ∈ seen
    · simpa only [dedupGo, if_pos hx] using ih
    · simp only [dedupGo, if_neg hx]
      refine List.Pairwise.cons ?_ ih
      intro y hy
      have := (mem_dedupGo hy).2
      intro hc
      exact this (by simp [hc])

theorem sublist_dedupGo {seen : List String} {l : List String} :
    (dedupGo seen l).Sublist l := by
  induction l generalizing seen with
  | nil => simp [dedupGo]
  | cons x xs ih =>
    by_cases hx : lowerS x ∈ seen
    · simp only [dedupGo, if_pos hx]
      exact List.Sublist.cons x ih
    · simp only [dedupGo, if_neg hx]
      exact List.Sublist.cons₂ x ih

theorem find_dedupGo {seen : List String} {l : List String} {t : String}
    (h : t ∈ dedupGo seen l) :
    l.find? (fun x => lowerS x == lowerS t) = some t := by
  induction l generalizing seen with
  | nil => simp [dedupGo] at h
  | cons x xs ih =>
    by_cases hx : lowerS x ∈ seen
    · simp only [dedupGo, if_pos hx] at h
      have hne : lowerS x ≠ lowerS t := by
        intro hc
        exact (mem_dedupGo h).2 (hc ▸ hx)
      simp only [List.find?]
      rw [show (lowerS x == lowerS t) = false by simp [hne]]
      exact ih h
    · simp only [dedupGo, if_neg hx] at h
      rcases List.mem_cons.mp h with rfl | hmem
      · simp [List.find?]
      · have hne : lowerS x ≠ lowerS t := by
          intro hc
          exact (mem_dedupGo hmem).2 (by simp [hc])
        simp only [List.find?]
        rw [show (lowerS x == lowerS t) = false by simp [hne]]
        exact ih hmem

theorem covered_dedupGo {seen : List String} {l : List String} {x : String}
    (hx : x ∈ l) (hs : lowerS x ∉ seen) :
    ∃ t ∈ dedupGo seen l, lowerS t = lowerS x := by
  induction l generalizing seen with
  | nil => simp at hx
  | cons y ys ih =>
    by_cases hy : lowerS y ∈ seen
    · simp only [dedupGo, if_pos hy]
      rcases List.mem_cons.mp hx with rfl | hmem
      · exact absurd hy hs
      · exact ih hmem hs
    · simp only [dedupGo, if_neg hy]
      by_cases hxy : lowerS x = lowerS y
      · exact ⟨y, List.mem_cons_self _ _, hxy.symm⟩
      · rcases List.mem_cons.mp hx with rfl | hmem
        · exact absurd rfl hxy
        · obtain ⟨t, ht, htx⟩ := ih hmem (by
            intro hc
            rcases List.mem_cons.mp hc with h1 | h2
            · exact hxy h1
            · exact hs h2)
          exact ⟨t, List.mem_cons_of_mem _ ht, htx⟩

/-- Claim C5: `parseTags` on a non-empty value splits on commas, trims,
drops empties (`rawTagItems`), and deduplicates case-insensitively while
preserving first-seen casing and relative order: the output is pairwise
distinct under lowercasing, is a sublist of the raw pieces (order and
casing preserved), each output entry is the first raw piece of its
case-insensitive class, every raw piece's class is represented, and an
empty result yields the "at least one value" error; on
`"Remote, REMOTE, backend, remote"` the output is `["Remote", "backend"]`. -/
theorem c5_tags_dedup :
    (∀ v : String, v ≠ "" →
      (parseTags v).1.Pairwise (fun a b => lowerS a ≠ lowerS b) ∧
      (parseTags v).1.Sublist (rawTagItems v) ∧
      (∀ t ∈ (parseTags v).1, (rawTagItems v).find? (fun x => lowerS x == lowerS t) = some t) ∧
      (∀ x ∈ rawTagItems v, ∃ t ∈ (parseTags v).1, lowerS t = lowerS x) ∧
      ((parseTags v).1 = [] →
        (parseTags v).2 = ["Tags/keywords must include at least one value"])) ∧
    parseTags ("Remote, REMOTE, backend, remote") = (["Remote", "backend"], []) := by
  refine ⟨?_, by decide⟩
  intro v hv
  have hdef : (parseTags v).1 = dedupGo [] (rawTagItems v) := by
    simp [parseTags, hv]
  refine ⟨?_, ?_, ?_, ?_, ?_⟩
  · rw [hdef]; exact pairwise_dedupGo
  · rw [hdef]; exact sublist_dedupGo
  · rw [hdef]; intro t ht; exact find_dedupGo ht
  · rw [hdef]; intro x hx; exact covered_dedupGo hx (by simp)
  · intro hnil
    simp [parseTags, hv] at hnil ⊢
    simp [hnil]

/-- Witness for C5: the dedup invariant instantiated at the example input. -/
theorem c5_tags_dedup_witness :
    (parseTags ("Remote, REMOTE, backend, remote")).1.Pairwise
      (fun a b => lowerS a ≠ lowerS b) :=
  ((c5_tags_dedup.1 ("Remote, REMOTE, backend, remote") (by decide))).1

/-- Claim C1 (code bug): in `main` the feed file is written
(`fs.writeFileSync`, source line 395) before the schema check
(`validateSchema`, line 397). On a batch with one valid submission and a
failing schema check, the run's effect trace contains the feed write first
and the fatal schema halt second, so a schema-conformance failure does not
prevent the feed file from being produced/overwritten. -/
theorem c1_feed_written_before_schema_gate :
    runMain purlSample pisoSample ("2024-06-15") (fun _ => false) [goodIssue] =
      [Effect.wroteFeed [goodJob], Effect.halted ("Schema validation failed")] := by
  decide

/-- Claim C2: whenever any submission fails validation, the run halts with
the aggregated report and nothing else — in particular no feed is written —
and the report is the fixed header followed by one line per failing
submission of the form `#<id> <title>: <error1>; <error2>; ...`. -/
theorem c2_invalid_gate :
    ∀ (purl piso : String → Option String) (today : String)
      (schemaOk : List Job → Bool) (issues : List Issue),
      (buildJobs purl piso today issues).invalidIssues ≠ [] →
      runMain purl piso today schemaOk issues =
        [Effect.halted (invalidReport (buildJobs purl piso today issues).invalidIssues)] ∧
      (∀ f : List Job, Effect.wroteFeed f ∉ runMain purl piso today schemaOk issues) ∧
      invalidReport (buildJobs purl piso today issues).invalidIssues =
        "Invalid approved job issues:\n" ++
          joinSep ("\n") ((buildJobs purl piso today issues).invalidIssues.map reportLine) ∧
      (∀ item : InvalidIssue, reportLine item =
        "#" ++ toString item.number ++ " " ++ item.title ++ ": " ++ joinSep ("; ") item.errors) := by
  intro purl piso today schemaOk issues h
  have htrace : runMain purl piso today schemaOk issues =
      [Effect.halted (invalidReport (buildJobs purl piso today issues).invalidIssues)] := by
    simp only [runMain, if_pos h]
  refine ⟨htrace, ?_, rfl, fun item => rfl⟩
  intro f hmem
  rw [htrace] at hmem
  simp at hmem

/-- Witness for C2: the gate evaluated on a concrete batch whose single
submission has an empty body, with the report fully spelled out. -/
theorem c2_invalid_gate_witness :
    runMain purlSample pisoSample ("2024-06-15") (fun _ => true) [emptyIssue] =
      [Effect.halted ("Invalid approved job issues:\n#1 Broken: Company name is required; Role title is required; Location is required; Employment type is required; Seniority is required; Description is required; Tags/keywords is required; Remote is required; Apply URL is required; Expiry date is required; Confirmation checkbox is required")] := by
  have h :=
    (c2_invalid_gate purlSample pisoSample ("2024-06-15") (fun _ => true) [emptyIssue]
      (by decide)).1
  rw [h]
  decide

/-- Claim C3: the record builder runs every validator and accumulates all
errors before deciding pass/fail. For any submission whose FieldMap lacks
both `applyUrl` and `expiryDate`, the accumulated error list contains both
required-field messages, and any non-empty error list makes the whole
submission invalid carrying exactly that list. -/
theorem c3_all_errors_collected :
    ∀ (purl piso : String → Option String) (issue : Issue),
      getField (parseIssueForm (issue.body.getD "")) FieldKey.applyUrl = "" →
      getField (parseIssueForm (issue.body.getD "")) FieldKey.expiryDate = "" →
      "Apply URL is required" ∈ issueErrors purl piso issue ∧
      "Expiry date is required" ∈ issueErrors purl piso issue ∧
      (∀ today : String, issueErrors purl piso issue ≠ [] →
        buildOne purl piso today issue =
          IssueOutcome.invalid ⟨issue.number, issue.title, issueErrors purl piso issue⟩) := by
  intro purl piso issue h1 h2
  refine ⟨?_, ?_, ?_⟩
  · simp [issueErrors, h1, parseApplyUrl]
  · simp [issueErrors, h2, parseExpiryDate]
  · intro today hne
    simp only [buildOne, if_neg hne]

/-- Witness for C3 on the empty-body submission: both messages are present. -/
theorem c3_all_errors_collected_witness :
    "Apply URL is required" ∈ issueErrors purlSample pisoSample emptyIssue ∧
      "Expiry date is required" ∈ issueErrors purlSample pisoSample emptyIssue := by
  have h := c3_all_errors_collected purlSample pisoSample emptyIssue (by decide) (by decide)
  exact ⟨h.1, h.2.1⟩

/-- Claim C6: for a submission that validates to a record `j`, the record is
excluded as expired exactly when its `expiryDate` string is lexicographically
less than today's UTC date string; dropped records are counted in
`expiredCount` and never appear among the validation errors. In particular a
record whose `expiryDate` equals today is kept (the comparison is strict). -/
theorem c6_expiry_boundary :
    ∀ (purl piso : String → Option String) (t t' : String) (issue : Issue) (j : Job),
      buildOne purl piso t issue = IssueOutcome.ok j →
      (buildOne purl piso t' issue =
        if isExpired j.expiryDate t' then IssueOutcome.expired else IssueOutcome.ok j) ∧
      isExpired j.expiryDate t' = ltS j.expiryDate t' ∧
      buildJobs purl piso t' [issue] =
        (if isExpired j.expiryDate t'
          then { jobs := [], invalidIssues := [], expiredCount := 1 }
          else { jobs := [j], invalidIssues := [], expiredCount := 0 }) := by
  intro purl piso t t' issue j h
  simp only [buildOne] at h
  split at h
  · rename_i herrs
    split at h
    · exact absurd h (by simp)
    · rename_i hexp
      have hone : buildOne purl piso t' issue =
          if isExpired j.expiryDate t' then IssueOutcome.expired else IssueOutcome.ok j := by
        simp only [buildOne, if_pos herrs]
        have hj := (IssueOutcome.ok.injEq _ _).mp h
        rw [← hj]
      refine ⟨hone, rfl, ?_⟩
      simp only [buildJobs, List.foldl, hone]
      by_cases hexp' : isExpired j.expiryDate t' = true
      · simp [hexp']
      · simp only [Bool.not_eq_true] at hexp'
        simp [hexp']
  · exact absurd h (by simp)

/-- Witness for C6 at the expiry boundary: `goodJob` expires on 2099-01-01;
with today equal to that date the record is kept, one day later it is
dropped and counted. -/
theorem c6_expiry_boundary_witness :
    buildJobs purlSample pisoSample ("2099-01-01") [goodIssue] =
        { jobs := [goodJob], invalidIssues := [], expiredCount := 0 } ∧
      buildJobs purlSample pisoSample ("2099-01-02") [goodIssue] =
        { jobs := [], invalidIssues := [], expiredCount := 1 } := by
  have hkeep :=
    (c6_expiry_boundary purlSample pisoSample ("2024-06-15") ("2099-01-01") goodIssue goodJob
      (by decide)).2.2
  have hdrop :=
    (c6_expiry_boundary purlSample pisoSample ("2024-06-15") ("2099-01-02") goodIssue goodJob
      (by decide)).2.2
  rw [show isExpired goodJob.expiryDate ("2099-01-01") = false by decide] at hkeep
  rw [show isExpired goodJob.expiryDate ("2099-01-02") = true by decide] at hdrop
  simp at hkeep hdrop
  exact ⟨hkeep, hdrop⟩

theorem ltCharList_irrefl : ∀ a : List Char, ltCharList a a = false := by
  intro a
  induction a with
  | nil => rfl
  | cons c cs ih => simp [ltCharList, ih]

theorem ltCharList_asymm : ∀ {a b : List Char},
    ltCharList a b = true → ltCharList b a = false := by
  intro a
  induction a with
  | nil =>
    intro b h
    cases b with
    | nil => simp [ltCharList] at h
    | cons d ds => rfl
  | cons c cs ih =>
    intro b h
    cases b with
    | nil => simp [ltCharList] at h
    | cons d ds =>
      simp only [ltCharList, Bool.or_eq_true, Bool.and_eq_true, beq_iff_eq,
        decide_eq_true_eq] at h
      rcases h with hlt | ⟨heq, hrec⟩
      · have h1 : decide (d < c) = false := by
          simp [not_lt_of_lt hlt]
        have h2 : (d == c) = false := by
          simp only [beq_eq_false_iff_ne, ne_eq]
          intro hc
          exact absurd (hc ▸ hlt) (lt_irrefl d)
        simp [ltCharList, h1, h2]
      · subst heq
        simp [ltCharList, lt_irrefl, ih hrec]

theorem ltCharList_trans : ∀ {a b c : List Char},
    ltCharList a b = true → ltCharList b c = true → ltCharList a c = true := by
  intro a
  induction a with
  | nil =>
    intro b c hab hbc
    cases b with
    | nil => simp [ltCharList] at hab
    | cons d ds =>
      cases c with
      | nil => simp [ltCharList] at hbc
      | cons e es => rfl
  | cons x xs ih =>
    intro b c hab hbc
    cases b with
    | nil => simp [ltCharList] at hab
    | cons y ys =>
      cases c with
      | nil => simp [ltCharList] at hbc
      | cons z zs =>
        simp only [ltCharList, Bool.or_eq_true, Bool.and_eq_true, beq_iff_eq,
          decide_eq_true_eq] at hab hbc ⊢
        rcases hab with hxy | ⟨hxy, hrec1⟩
        · rcases hbc with hyz | ⟨hyz, hrec2⟩
          · exact Or.inl (lt_trans hxy hyz)
          · exact Or.inl (hyz ▸ hxy)
        · rcases hbc with hyz | ⟨hyz, hrec2⟩
          · exact Or.inl (hxy ▸ hyz)
          · exact Or.inr ⟨hxy.trans hyz, ih hrec1 hrec2⟩

theorem ltCharList_total : ∀ a b : List Char,
    ltCharList a b = true ∨ a = b ∨ ltCharList b a = true := by
  intro a
  induction a with
  | nil =>
    intro b
    cases b with
    | nil => exact Or.inr (Or.inl rfl)
    | cons d ds => exact Or.inl rfl
  | cons x xs ih =>
    intro b
    cases b with
    | nil => exact Or.inr (Or.inr rfl)
    | cons y ys =>
      rcases lt_trichotomy x y with hlt | heq | hgt
      · exact Or.inl (by simp [ltCharList, hlt])
      · subst heq
        rcases ih ys with h1 | h2 | h3
        · exact Or.inl (by simp [ltCharList, h1])
        · exact Or.inr (Or.inl (by rw [h2]))
        · exact Or.inr (Or.inr (by simp [ltCharList, h3]))
      · exact Or.inr (Or.inr (by simp [ltCharList, hgt]))

theorem ltS_ne {a b : String} (h : ltS a b = true) : a ≠ b := by
  intro hc
  subst hc
  rw [ltS, ltCharList_irrefl] at h
  exact absurd h (by simp)

theorem ltS_asymm {a b : String} (h : ltS a b = true) : ltS b a = false :=
  ltCharList_asymm h

theorem ltS_trans {a b c : String} (h1 : ltS a b = true) (h2 : ltS b c = true) :
    ltS a c = true :=
  ltCharList_trans h1 h2

theorem ltS_of_not_lt_of_lt {a b c : String}
    (h1 : ltS a b = false) (h2 : ltS a c = true) : ltS b c = true := by
  rcases ltCharList_total b.data a.data with hba | hba | hba
  · exact ltCharList_trans hba h2
  · have hab : b = a := congrArg String.mk hba
    rw [hab]
    exact h2
  · rw [ltS] at h1
    rw [h1] at hba
    exact absurd hba (by simp)

theorem mem_insertDesc {x y : Job} {l : List Job}
    (h : y ∈ insertDesc x l) : y = x ∨ y ∈ l := by
  induction l with
  | nil => simpa [insertDesc] using h
  | cons z zs ih =>
    simp only [insertDesc] at h
    split at h
    · rcases List.mem_cons.mp h with rfl | hmem
      · exact Or.inl rfl
      · exact Or.inr hmem
    · rcases List.mem_cons.mp h with rfl | hmem
      · exact Or.inr (List.mem_cons_self _ _)
      · rcases ih hmem with h1 | h2
        · exact Or.inl h1
        · exact Or.inr (List.mem_cons_of_mem _ h2)

theorem pairwise_insertDesc {x : Job} {l : List Job}
    (h : l.Pairwise (fun a b => ltS a.updatedAt b.updatedAt = false)) :
    (insertDesc x l).Pairwise (fun a b => ltS a.updatedAt b.updatedAt = false) := by
  induction l with
  | nil => simp [insertDesc]
  | cons y ys ih =>
    rcases List.pairwise_cons.mp h with ⟨hy, hys⟩
    simp only [insertDesc]
    split
    · rename_i hyx
      refine List.pairwise_cons.mpr ⟨?_, h⟩
      intro z hz
      rcases List.mem_cons.mp hz with rfl | hmem
      · exact ltS_asymm hyx
      · by_contra hc
        rw [Bool.not_eq_false] at hc
        have h3 : ltS y.updatedAt z.updatedAt = true := ltS_trans hyx hc
        rw [hy z hmem] at h3
        exact absurd h3 (by simp)
    · rename_i hyx
      refine List.pairwise_cons.mpr ⟨?_, ih hys⟩
      intro z hz
      rcases mem_insertDesc hz with rfl | hmem
      · rw [Bool.not_eq_true] at hyx
        exact hyx
      · exact hy z hmem

theorem filter_insertDesc_ne {x : Job} {l : List Job} {s : String}
    (h : (x.updatedAt == s) = false) :
    (insertDesc x l).filter (fun j => j.updatedAt == s) =
      l.filter (fun j => j.updatedAt == s) := by
  induction l with
  | nil => simp [insertDesc, List.filter, h]
  | cons y ys ih =>
    simp only [insertDesc]
    split
    · simp [List.filter, h]
    · simp only [List.filter]
      cases hy : (y.updatedAt == s) <;> simp [ih]

theorem filter_insertDesc_eq {x : Job} {l : List Job} {s : String}
    (hsort : l.Pairwise (fun a b => ltS a.updatedAt b.updatedAt = false))
    (h : (x.updatedAt == s) = true) :
    (insertDesc x l).filter (fun j => j.updatedAt == s) =
      l.filter (fun j => j.updatedAt == s) ++ [x] := by
  induction l with
  | nil => simp [insertDesc, List.filter, h]
  | cons y ys ih =>
    rcases List.pairwise_cons.mp hsort with ⟨hy, hys⟩
    simp only [insertDesc]
    split
    · rename_i hyx
      have hxs : x.updatedAt = s := by simpa using h
      have hfilter : (y :: ys).filter (fun j => j.updatedAt == s) = [] := by
        rw [List.filter_eq_nil_iff]
        intro z hz
        rcases List.mem_cons.mp hz with rfl | hmem
        · have : z.updatedAt ≠ x.updatedAt := ltS_ne hyx
          simp [hxs ▸ this]
        · have hzx : ltS z.updatedAt x.updatedAt = true :=
            ltS_of_not_lt_of_lt (hy z hmem) hyx
          have : z.updatedAt ≠ x.updatedAt := ltS_ne hzx
          simp [hxs ▸ this]
      have hx : List.filter (fun j => j.updatedAt == s) (x :: y :: ys) =
          x :: List.filter (fun j => j.updatedAt == s) (y :: ys) := by
        simp [List.filter_cons, h]
      rw [hx, hfilter]
      simp
    · simp only [List.filter]
      cases hyv : (y.updatedAt == s) <;> simp [ih hys]

theorem pairwise_sortFold : ∀ (l acc : List Job),
    acc.Pairwise (fun a b => ltS a.updatedAt b.updatedAt = false) →
    (l.foldl (fun acc x => insertDesc x acc) acc).Pairwise
      (fun a b => ltS a.updatedAt b.updatedAt = false) := by
  intro l
  induction l with
  | nil => intro acc h; exact h
  | cons x xs ih =>
    intro acc h
    exact ih (insertDesc x acc) (pairwise_insertDesc h)

theorem filter_sortFold : ∀ (l acc : List Job) (s : String),
    acc.Pairwise (fun a b => ltS a.updatedAt b.updatedAt = false) →
    (l.foldl (fun acc x => insertDesc x acc) acc).filter (fun j => j.updatedAt == s) =
      acc.filter (fun j => j.updatedAt == s) ++ l.filter (fun j => j.updatedAt == s) := by
  intro l
  induction l with
  | nil => intro acc s h; simp
  | cons x xs ih =>
    intro acc s h
    have hstep := ih (insertDesc x acc) s (pairwise_insertDesc h)
    simp only [List.foldl_cons] at hstep ⊢
    rw [hstep]
    cases hx : (x.updatedAt == s) with
    | true =>
      rw [filter_insertDesc_eq h hx]
      have hcons : List.filter (fun j => j.updatedAt == s) (x :: xs) =
          x :: List.filter (fun j => j.updatedAt == s) xs := by
        simp [List.filter_cons, hx]
      rw [hcons]
      simp
    | false =>
      rw [filter_insertDesc_ne hx]
      have hcons : List.filter (fun j => j.updatedAt == s) (x :: xs) =
          List.filter (fun j => j.updatedAt == s) xs := by
        simp [List.filter_cons, hx]
      rw [hcons]

/-- Claim C7: the emitted feed order. `sortJobs` (the model of
`jobs.sort((a, b) => b.updatedAt.localeCompare(a.updatedAt))`) sorts
descending by `updatedAt` — no earlier element is lexicographically smaller
than a later one — and is stable: for every timestamp the records carrying
it keep their original relative order. On the three-record example (ids
1, 2, 3 = A, B, C) the output is B, A, C. -/
theorem c7_sort_stable_desc :
    (∀ l : List Job,
      (sortJobs l).Pairwise (fun a b => ltS a.updatedAt b.updatedAt = false)) ∧
    (∀ (l : List Job) (s : String),
      (sortJobs l).filter (fun j => j.updatedAt == s) =
        l.filter (fun j => j.updatedAt == s)) ∧
    sortJobs [jobA, jobB, jobC] = [jobB, jobA, jobC] := by
  refine ⟨?_, ?_, by decide⟩
  · intro l
    exact pairwise_sortFold l [] (by simp)
  · intro l s
    have h := filter_sortFold l [] s (by simp)
    simpa using h

theorem all_takeWhileWs : ∀ l : List Char, ((l.takeWhile isWs).all isWs) = true := by
  intro l
  induction l with
  | nil => rfl
  | cons c cs ih =>
    cases hc : isWs c with
    | true => simp [List.takeWhile_cons, hc, ih]
    | false => simp [List.takeWhile_cons, hc]

theorem dropWhile_append_of_all {w l : List Char} (hw : w.all isWs = true) :
    (w ++ l).dropWhile isWs = l.dropWhile isWs := by
  induction w with
  | nil => rfl
  | cons c cs ih =>
    simp only [List.all_cons, Bool.and_eq_true] at hw
    simp [List.dropWhile_cons, hw.1, ih hw.2]

theorem takeWhile_append_dropWhile_ws (l : List Char) :
    l.takeWhile isWs ++ l.dropWhile isWs = l :=
  List.takeWhile_append_dropWhile isWs l

theorem checkLine_iff (cs : List Char) :
    checkLine cs = true ↔
      ∃ w1 w2 m rest,
        cs = w1 ++ '-' :: (w2 ++ '[' :: m :: ']' :: rest) ∧
        w1.all isWs = true ∧ w2.all isWs = true ∧ (m = 'x' ∨ m = 'X') := by
  constructor
  · intro h
    unfold checkLine at h
    cases hr1 : cs.dropWhile isWs with
    | nil => rw [hr1] at h; simp at h
    | cons c1 rest2 =>
      rw [hr1] at h
      simp only [Bool.and_eq_true, beq_iff_eq] at h
      obtain ⟨rfl, h⟩ := h
      cases hr3 : rest2.dropWhile isWs with
      | nil => rw [hr3] at h; simp at h
      | cons c2 rest4 =>
        rw [hr3] at h
        cases rest4 with
        | nil => simp at h
        | cons m rest5 =>
          cases rest5 with
          | nil => simp at h
          | cons c4 rest6 =>
            simp only [Bool.and_eq_true, Bool.or_eq_true, beq_iff_eq] at h
            obtain ⟨⟨rfl, rfl⟩, hm⟩ := h
            refine ⟨cs.takeWhile isWs, rest2.takeWhile isWs, m, rest6, ?_,
              all_takeWhileWs cs, all_takeWhileWs rest2, hm⟩
            conv_lhs => rw [← takeWhile_append_dropWhile_ws cs]
            rw [hr1]
            congr 1
            congr 1
            conv_lhs => rw [← takeWhile_append_dropWhile_ws rest2]
            rw [hr3]
  · rintro ⟨w1, w2, m, rest, rfl, hw1, hw2, hm⟩
    unfold checkLine
    rw [dropWhile_append_of_all hw1]
    rw [List.dropWhile_cons, if_neg (by decide)]
    have h2 : (w2 ++ '[' :: m :: ']' :: rest).dropWhile isWs = '[' :: m :: ']' :: rest := by
      rw [dropWhile_append_of_all hw2, List.dropWhile_cons, if_neg (by decide)]
    simp only [h2]
    rcases hm with rfl | rfl <;> simp

/-- Counterexample to claim C8 as stated: the source regex
`/^\s*-\s*\[[xX]\]/` allows an empty gap between the dash and the bracket,
so `-[x] I confirm` passes the validator even though no line's trimmed
content starts with `- [x]` or `- [X]` (the claim's stated condition,
`specConfirmPass`). The claimed "if and only if" is therefore false at this
input. -/
theorem c8_counterexample :
    (parseConfirmation ("-[x] I confirm")).1 = true ∧
      specConfirmPass ("-[x] I confirm") = false ∧
      (parseConfirmation ("-[x] I confirm")).2 = [] := by
  decide

/-- Claim C8 as amended: for a non-empty value the validator passes iff some
line consists of optional whitespace, a dash, optional whitespace (possibly
none — not necessarily the single space of `- [x]`) and then `[x]` or `[X]`;
a failing non-empty value gets the "must be checked" error, the empty value
gets the required error, and the claim's two examples behave as stated. -/
theorem c8_confirmation_checkbox :
    parseConfirmation "" = (false, ["Confirmation checkbox is required"]) ∧
    (parseConfirmation ("- [ ] I confirm")).1 = false ∧
    (parseConfirmation ("- [x] I confirm")).1 = true ∧
    (∀ v : String, v ≠ "" →
      ((parseConfirmation v).1 = true ↔
        ∃ l ∈ splitLines v, ∃ w1 w2 m rest,
          l.data = w1 ++ '-' :: (w2 ++ '[' :: m :: ']' :: rest) ∧
          w1.all isWs = true ∧ w2.all isWs = true ∧ (m = 'x' ∨ m = 'X')) ∧
      ((parseConfirmation v).1 = false →
        (parseConfirmation v).2 = ["Confirmation checkbox must be checked"])) := by
  refine ⟨by decide, by decide, by decide, ?_⟩
  intro v hv
  constructor
  · simp only [parseConfirmation, if_neg hv, List.any_eq_true]
    constructor
    · rintro ⟨l, hl, hcheck⟩
      exact ⟨l, hl, (checkLine_iff l.data).mp hcheck⟩
    · rintro ⟨l, hl, hdecomp⟩
      exact ⟨l, hl, (checkLine_iff l.data).mpr hdecomp⟩
  · intro hfalse
    simp only [parseConfirmation, if_neg hv] at hfalse ⊢
    rw [hfalse]
    simp

/-- Witness for C8's amended theorem at a concrete passing line with the
canonical one-space gap. -/
theorem c8_confirmation_checkbox_witness :
    (parseConfirmation ("- [x] ok")).1 = true := by
  have h := (c8_confirmation_checkbox.2.2.2 ("- [x] ok") (by decide)).1
  refine h.mpr ⟨"- [x] ok", by decide, [], [' '], 'x', " ok".data, by decide, rfl, rfl,
    Or.inl rfl⟩

theorem dropWhile_ws_shape (l : List Char) :
    l.dropWhile isWs = [] ∨
      ∃ c t, l.dropWhile isWs = c :: t ∧ isWs c = false := by
  induction l with
  | nil => exact Or.inl rfl
  | cons c cs ih =>
    cases hc : isWs c with
    | true => simpa [List.dropWhile_cons, hc] using ih
    | false => exact Or.inr ⟨c, cs, by simp [List.dropWhile_cons, hc], hc⟩

theorem trimL_eq_rdrop (cs : List Char) :
    trimL cs = List.rdropWhile isWs (cs.dropWhile isWs) := rfl

theorem trimL_idem (cs : List Char) : trimL (trimL cs) = trimL cs := by
  rcases dropWhile_ws_shape cs with hnil | ⟨c, t, hct, hc⟩
  · have h0 : trimL cs = [] := by simp [trimL, hnil]
    rw [h0]
    simp [trimL]
  · have hBrd : trimL cs = List.rdropWhile isWs (c :: t) := by
      rw [trimL_eq_rdrop, hct]
    have hBne : trimL cs ≠ [] := by
      rw [hBrd, Ne, List.rdropWhile_eq_nil_iff]
      push_neg
      exact ⟨c, by simp, by simp [hc]⟩
    have hpre : trimL cs <+: c :: t := by
      rw [hBrd]
      exact List.rdropWhile_prefix isWs (c :: t)
    obtain ⟨r, hr⟩ := hpre
    obtain ⟨B', hB'⟩ : ∃ B', trimL cs = c :: B' := by
      cases hBcase : trimL cs with
      | nil => exact absurd hBcase hBne
      | cons b bs =>
        rw [hBcase] at hr
        simp only [List.cons_append] at hr
        injection hr with h1 h2
        exact ⟨bs, by rw [h1]⟩
    have hdw : (c :: B').dropWhile isWs = c :: B' := by
      simp [List.dropWhile_cons, hc]
    calc trimL (trimL cs) = trimL (c :: B') := by rw [hB']
      _ = List.rdropWhile isWs ((c :: B').dropWhile isWs) := rfl
      _ = List.rdropWhile isWs (c :: B') := by rw [hdw]
      _ = List.rdropWhile isWs (List.rdropWhile isWs (c :: t)) := by rw [← hB', hBrd]
      _ = List.rdropWhile isWs (c :: t) := List.rdropWhile_idempotent isWs (c :: t)
      _ = trimL cs := hBrd.symm

theorem trimS_idem (s : String) : trimS (trimS s) = trimS s :=
  congrArg String.mk (trimL_idem s.data)

theorem trimS_normalizeValue (raw : String) :
    trimS (normalizeValue raw) = normalizeValue raw := by
  unfold normalizeValue
  split
  · decide
  · split
    · decide
    · exact trimS_idem raw

theorem lookupF_mem {l : FieldMap} {k : FieldKey} {v : String}
    (h : lookupF l k = some v) : (k, v) ∈ l := by
  induction l with
  | nil => simp [lookupF] at h
  | cons p rest ih =>
    obtain ⟨k', v'⟩ := p
    by_cases hk : k' = k
    · simp only [lookupF, if_pos hk] at h
      injection h with h1
      subst hk
      rw [← h1]
      exact List.mem_cons_self _ _
    · simp only [lookupF, if_neg hk] at h
      exact List.mem_cons_of_mem _ (ih h)

theorem range_commit {s : TokState}
    (h : ∀ p ∈ s.fields, ∃ raw, p.2 = normalizeValue raw) :
    ∀ p ∈ (commitState s).fields, ∃ raw, p.2 = normalizeValue raw := by
  unfold commitState
  cases s.currentKey with
  | none => exact h
  | some k =>
    simp only
    split
    · exact h
    · intro p hp
      rcases List.mem_append.mp hp with hmem | hmem
      · exact h p hmem
      · simp only [List.mem_singleton] at hmem
        subst hmem
        exact ⟨trimS (joinNL s.buffer), rfl⟩

theorem range_stepLine {s : TokState} {line : String}
    (h : ∀ p ∈ s.fields, ∃ raw, p.2 = normalizeValue raw) :
    ∀ p ∈ (stepLine s line).fields, ∃ raw, p.2 = normalizeValue raw := by
  unfold stepLine
  cases headingKeyOf line with
  | some k => exact range_commit h
  | none =>
    cases s.currentKey with
    | some k' => exact h
    | none => exact h

theorem range_foldl {lines : List String} {s : TokState}
    (h : ∀ p ∈ s.fields, ∃ raw, p.2 = normalizeValue raw) :
    ∀ p ∈ (lines.foldl stepLine s).fields, ∃ raw, p.2 = normalizeValue raw := by
  induction lines generalizing s with
  | nil => exact h
  | cons line rest ih => exact ih (range_stepLine h)

/-- Claim C10: every value the tokenizer commits has passed through the
field normalizer — it is `normalizeValue` of its section's raw content,
hence carries no leading or trailing whitespace — and `normalizeValue`
returns the empty string whenever the raw content is blank after trimming
or equals a "no response" placeholder after whitespace collapse and
lowercasing. -/
theorem c10_values_normalized :
    (∀ (body : String) (k : FieldKey) (v : String),
      lookupF (parseIssueForm body) k = some v →
      (∃ raw, v = normalizeValue raw) ∧ trimS v = v) ∧
    (∀ raw : String, trimS raw = "" → normalizeValue raw = "") ∧
    (∀ raw : String,
      lowerCollapse (trimS raw) = "_no response_" ∨
        lowerCollapse (trimS raw) = "no response" →
      normalizeValue raw = "") := by
  refine ⟨?_, ?_, ?_⟩
  · intro body k v h
    have hmem := lookupF_mem h
    have hrange : ∀ p ∈ parseIssueForm body, ∃ raw, p.2 = normalizeValue raw := by
      unfold parseIssueForm
      split
      · simp
      · exact range_commit (range_foldl (by simp))
    obtain ⟨raw, hraw⟩ := hrange (k, v) hmem
    have hraw' : v = normalizeValue raw := hraw
    refine ⟨⟨raw, hraw'⟩, ?_⟩
    rw [hraw']
    exact trimS_normalizeValue raw
  · intro raw h
    unfold normalizeValue
    rw [if_pos h]
  · intro raw h
    unfold normalizeValue
    split
    · rfl
    · rw [if_pos]
      rcases h with h | h <;> simp [h]

/-- Witness for C10 on a concrete body with padded content: the committed
value is trimmed and normalizer-stable. -/
theorem c10_values_normalized_witness :
    (∃ raw, "Acme" = normalizeValue raw) ∧ trimS ("Acme") = "Acme" :=
  c10_values_normalized.1 ("## Company Name\n  Acme  ") FieldKey.company "Acme" (by decide)

/-- Counterexample to claim C9 as stated: in `dupWeirdBody` the unrecognized
heading line `### Weird` is processed while a field (`company`) is open —
but that open field is a duplicate of an already-committed key, so the line
is consumed into the discard sink and appears in no committed value: the
whole FieldMap is `[(company, "A")]` and `"A"` does not contain the line. -/
theorem c9_counterexample :
    isUnrecognizedHeading ("### Weird") = true ∧
    (((splitLines dupWeirdBody).take 3).foldl stepLine ⟨[], none, []⟩).currentKey =
      some FieldKey.company ∧
    parseIssueForm dupWeirdBody = [(FieldKey.company, "A")] ∧
    containsSeg ("### Weird".data) ("A".data) = false := by
  decide

theorem headingKeyOf_none_of_unrecognized {line : String}
    (h : isUnrecognizedHeading line = true) : headingKeyOf line = none := by
  unfold isUnrecognizedHeading at h
  unfold headingKeyOf
  cases ht : headingTextOf line with
  | none => rfl
  | some txt =>
    rw [ht] at h
    exact Option.isNone_iff_eq_none.mp h

theorem stepLine_unrecognized {s : TokState} {line : String} {k : FieldKey}
    (hk : s.currentKey = some k) (h : isUnrecognizedHeading line = true) :
    stepLine s line = { s with buffer := s.buffer ++ [line] } := by
  unfold stepLine
  rw [headingKeyOf_none_of_unrecognized h, hk]

theorem open_key_commits : ∀ (post : List String) (s : TokState) (k : FieldKey),
    s.currentKey = some k →
    lookupF s.fields k = none →
    ∃ rest, lookupF (commitState (post.foldl stepLine s)).fields k =
      some (normalizeValue (trimS (joinNL (s.buffer ++ rest)))) := by
  intro post
  induction post with
  | nil =>
    intro s k hk hnone
    refine ⟨[], ?_⟩
    rw [List.append_nil]
    simp only [List.foldl_nil]
    unfold commitState
    rw [hk]
    simp only [hnone, Option.isSome_none, Bool.false_eq_true, if_false]
    exact lookupF_append_self hnone
  | cons line post ih =>
    intro s k hk hnone
    simp only [List.foldl_cons]
    cases hkey : headingKeyOf line with
    | none =>
      have hstep : stepLine s line = { s with buffer := s.buffer ++ [line] } := by
        unfold stepLine
        rw [hkey, hk]
      rw [hstep]
      obtain ⟨rest, hrest⟩ := ih { s with buffer := s.buffer ++ [line] } k hk hnone
      refine ⟨line :: rest, ?_⟩
      have hassoc : s.buffer ++ line :: rest = (s.buffer ++ [line]) ++ rest := by simp
      rw [hassoc]
      exact hrest
    | some k' =>
      have hstep : stepLine s line =
          { fields := (commitState s).fields, currentKey := some k', buffer := [] } := by
        unfold stepLine
        rw [hkey]
      have hcommit : (commitState s).fields =
          s.fields ++ [(k, normalizeValue (trimS (joinNL s.buffer)))] := by
        unfold commitState
        rw [hk]
        simp only [hnone, Option.isSome_none, Bool.false_eq_true, if_false]
      refine ⟨[], ?_⟩
      rw [List.append_nil]
      have hlook : lookupF (stepLine s line).fields k =
          some (normalizeValue (trimS (joinNL s.buffer))) := by
        rw [hstep]
        simp only
        rw [hcommit]
        exact lookupF_append_self hnone
      exact lookupF_commit (lookupF_foldl hlook)

theorem startsWithL_append (n b : List Char) : startsWithL n (n ++ b) = true := by
  induction n with
  | nil => rfl
  | cons c cs ih => simp [startsWithL, ih]

theorem containsSeg_decomp (n a b : List Char) : containsSeg n (a ++ n ++ b) = true := by
  induction a with
  | nil =>
    cases n with
    | nil => cases b <;> simp [containsSeg, startsWithL]
    | cons c cs =>
      have h := startsWithL_append (c :: cs) b
      simp only [List.cons_append] at h
      simp [containsSeg, h]
  | cons x a' ih =>
    rw [List.append_assoc] at ih
    simp only [List.cons_append, List.append_assoc, containsSeg]
    simp [ih]

theorem trim_decomp (cs : List Char) : ∃ a b, cs = a ++ trimL cs ++ b := by
  obtain ⟨t, ht⟩ := List.rdropWhile_prefix isWs (cs.dropWhile isWs)
  refine ⟨cs.takeWhile isWs, t, ?_⟩
  rw [List.append_assoc, trimL_eq_rdrop, ht, List.takeWhile_append_dropWhile]

theorem decomp_dropWhile : ∀ (a : List Char) {c : Char} {n' b : List Char},
    isWs c = false →
    ∃ a2, (a ++ (c :: n') ++ b).dropWhile isWs = a2 ++ (c :: n') ++ b := by
  intro a
  induction a with
  | nil =>
    intro c n' b hc
    exact ⟨[], by simp [List.dropWhile_cons, hc]⟩
  | cons x a' ih =>
    intro c n' b hc
    cases hx : isWs x with
    | true =>
      obtain ⟨a2, ha2⟩ := @ih c n' b hc
      refine ⟨a2, ?_⟩
      simp only [List.cons_append, List.dropWhile_cons, hx, if_true]
      simp only [List.append_assoc] at ha2 ⊢
      exact ha2
    | false =>
      refine ⟨x :: a', ?_⟩
      simp [List.dropWhile_cons, hx]

theorem decomp_rdropWhile {a n b : List Char} (hn : n ≠ [])
    (hlast : isWs (n.getLast hn) = false) :
    ∃ b2, List.rdropWhile isWs (a ++ n ++ b) = a ++ n ++ b2 := by
  obtain ⟨c, m, hrev⟩ : ∃ c m, n.reverse = c :: m := by
    cases hrevc : n.reverse with
    | nil => exact absurd (List.reverse_eq_nil_iff.mp hrevc) hn
    | cons c m => exact ⟨c, m, rfl⟩
  have hc : isWs c = false := by
    have h1 : n.getLast? = some c := by
      rw [← List.head?_reverse, hrev]
      rfl
    have h2 : n.getLast? = some (n.getLast hn) := List.getLast?_eq_getLast n hn
    have h3 : c = n.getLast hn := by
      rw [h1] at h2
      injection h2
    rw [h3]
    exact hlast
  obtain ⟨a2, ha2⟩ := @decomp_dropWhile b.reverse c m a.reverse hc
  refine ⟨a2.reverse, ?_⟩
  unfold List.rdropWhile
  have e1 : (a ++ n ++ b).reverse = b.reverse ++ (c :: m) ++ a.reverse := by
    rw [← hrev]
    simp [List.reverse_append, List.append_assoc]
  rw [e1, ha2, ← hrev]
  simp [List.reverse_append, List.append_assoc]

theorem join_decomp : ∀ (xs : List String) (line : String) (ys : List String),
    ∃ a b, joinNLData (xs ++ line :: ys) = a ++ line.data ++ b := by
  intro xs
  induction xs with
  | nil =>
    intro line ys
    cases ys with
    | nil => exact ⟨[], [], by simp [joinNLData]⟩
    | cons y ys' => exact ⟨[], '\n' :: joinNLData (y :: ys'), by simp [joinNLData]⟩
  | cons x xs' ih =>
    intro line ys
    obtain ⟨a, b, hab⟩ := ih line ys
    have hne : xs' ++ line :: ys ≠ [] := by simp
    have hstep : ∀ (z : String) (zs : List String),
        joinNLData (x :: z :: zs) = x.data ++ '\n' :: joinNLData (z :: zs) :=
      fun z zs => rfl
    refine ⟨x.data ++ '\n' :: a, b, ?_⟩
    rw [List.cons_append]
    cases hl : xs' ++ line :: ys with
    | nil => exact absurd hl hne
    | cons z zs =>
      rw [hl] at hab
      rw [hstep z zs, hab]
      simp

theorem mem_collapseWs {c : Char} (hc : isWs c = false) :
    ∀ (l : List Char) (flag : Bool), c ∈ l → c ∈ collapseWs l flag := by
  intro l
  induction l with
  | nil => intro flag h; simp at h
  | cons d ds ih =>
    intro flag h
    cases hd : isWs d with
    | true =>
      have hcd : c ≠ d := fun hcd => by rw [hcd] at hc; rw [hc] at hd; cases hd
      have hmem : c ∈ ds := by
        rcases List.mem_cons.mp h with rfl | hm
        · exact absurd rfl hcd
        · exact hm
      have hrec := ih true hmem
      cases flag <;> simp [collapseWs, hd, hrec]
    | false =>
      simp only [collapseWs, hd, Bool.false_eq_true, if_false]
      rcases List.mem_cons.mp h with rfl | hm
      · exact List.mem_cons_self _ _
      · exact List.mem_cons_of_mem _ (ih false hm)

theorem mem_lowerLi_hash {l : List Char} (h : '#' ∈ l) : '#' ∈ lowerLi l :=
  List.mem_map.mpr ⟨'#', h, by decide⟩

theorem lowerCollapse_ne_placeholder {x : String} (h : '#' ∈ x.data) :
    ¬ (lowerCollapse x = "_no response_" ∨ lowerCollapse x = "no response") := by
  have h1 : '#' ∈ (lowerCollapse x).data :=
    mem_lowerLi_hash (mem_collapseWs (by decide) x.data false h)
  rintro (hc | hc) <;> rw [hc] at h1 <;> revert h1 <;> decide

theorem trimL_last_not_ws {cs : List Char} (h : trimL cs ≠ []) :
    isWs ((trimL cs).getLast h) = false := by
  have h2 := List.rdropWhile_last_not isWs (cs.dropWhile isWs) h
  simpa using h2

theorem unrecognized_heading_shape {line : String}
    (h : isUnrecognizedHeading line = true) :
    ∃ t', trimL line.data = '#' :: t' := by
  unfold isUnrecognizedHeading at h
  cases ht : headingTextOf line with
  | none => rw [ht] at h; cases h
  | some txt =>
    simp only [headingTextOf] at ht
    split at ht
    · rename_i hif
      cases hT : trimL line.data with
      | nil =>
        rw [hT] at hif
        simp at hif
      | cons c tl =>
        rw [hT] at hif
        by_cases hc : (c == '#') = true
        · have hc2 : c = '#' := by simpa using hc
          exact ⟨tl, by rw [hc2]⟩
        · rw [List.takeWhile_cons] at hif
          simp only [hc, Bool.false_eq_true, if_false] at hif
          simp at hif
    · cases ht

/-- Claim C9 as amended: an unrecognized 2–6 level heading line reaching the
tokenizer while a field is open is appended verbatim to that field's buffer;
and when the open field's key has not already been committed (i.e. it is not
a duplicate discard sink), the line's trimmed text ends up inside that
field's committed value no matter what the rest of the document is. -/
theorem c9_unrecognized_heading_buffered :
    ∀ (s : TokState) (post : List String) (line : String) (k : FieldKey),
      s.currentKey = some k →
      lookupF s.fields k = none →
      isUnrecognizedHeading line = true →
      (stepLine s line).buffer = s.buffer ++ [line] ∧
      ∃ v, lookupF (commitState (post.foldl stepLine (stepLine s line))).fields k = some v ∧
        containsSeg (trimL line.data) v.data = true := by
  intro s post line k hk hnone hline
  have hstep := stepLine_unrecognized hk hline
  refine ⟨by rw [hstep], ?_⟩
  have hk2 : (stepLine s line).currentKey = some k := by rw [hstep]; exact hk
  have hnone2 : lookupF (stepLine s line).fields k = none := by rw [hstep]; exact hnone
  obtain ⟨rest, hrest⟩ := open_key_commits post (stepLine s line) k hk2 hnone2
  rw [hstep] at hrest
  have hbuf : ({ s with buffer := s.buffer ++ [line] } : TokState).buffer ++ rest =
      s.buffer ++ line :: rest := by simp
  refine ⟨normalizeValue (trimS (joinNL (s.buffer ++ line :: rest))), ?_, ?_⟩
  · rw [hstep, ← hbuf]
    exact hrest
  · obtain ⟨a0, b0, hjoin⟩ := join_decomp s.buffer line rest
    obtain ⟨la, lb, hline_dec⟩ := trim_decomp line.data
    obtain ⟨t', hshape⟩ := unrecognized_heading_shape hline
    have hnne : trimL line.data ≠ [] := by rw [hshape]; simp
    have hlast : isWs ((trimL line.data).getLast hnne) = false := trimL_last_not_ws hnne
    have hjoined : joinNLData (s.buffer ++ line :: rest) =
        (a0 ++ la) ++ trimL line.data ++ (lb ++ b0) := by
      rw [hjoin]
      conv_lhs => rw [hline_dec]
      simp [List.append_assoc]
    have hstep1 : ∃ a2, (joinNLData (s.buffer ++ line :: rest)).dropWhile isWs =
        a2 ++ trimL line.data ++ (lb ++ b0) := by
      obtain ⟨a2, ha2⟩ := @decomp_dropWhile (a0 ++ la) '#' t' (lb ++ b0) (by decide)
      refine ⟨a2, ?_⟩
      rw [hjoined, hshape]
      exact ha2
    obtain ⟨a2, ha2⟩ := hstep1
    obtain ⟨b2, hb2⟩ := @decomp_rdropWhile a2 (trimL line.data) (lb ++ b0) hnne hlast
    have htrim : trimL (joinNLData (s.buffer ++ line :: rest)) =
        a2 ++ trimL line.data ++ b2 := by
      rw [trimL_eq_rdrop, ha2]
      exact hb2
    have hxdata : (trimS (joinNL (s.buffer ++ line :: rest))).data =
        a2 ++ trimL line.data ++ b2 := htrim
    have hxne : ¬ (trimS (joinNL (s.buffer ++ line :: rest)) = "") := by
      intro hc
      have hd : (trimS (joinNL (s.buffer ++ line :: rest))).data = [] := by simp [hc]
      rw [hxdata, hshape] at hd
      simp at hd
    have hhash : '#' ∈ (trimS (joinNL (s.buffer ++ line :: rest))).data := by
      rw [hxdata, hshape]
      simp
    have hplace := lowerCollapse_ne_placeholder hhash
    have hv : normalizeValue (trimS (joinNL (s.buffer ++ line :: rest))) =
        trimS (joinNL (s.buffer ++ line :: rest)) := by
      unfold normalizeValue
      rw [trimS_idem]
      rw [if_neg hxne]
      rw [if_neg (by simp only [Bool.or_eq_true, decide_eq_true_eq]; exact hplace)]
    rw [hv, hxdata]
    exact containsSeg_decomp (trimL line.data) a2 b2

/-- Witness for C9's amended theorem: with `company` freshly open, the
unrecognized heading `### Weird` is buffered and its text reaches the
committed `company` value. -/
theorem c9_unrecognized_heading_buffered_witness :
    (stepLine ⟨[], some FieldKey.company, []⟩ ("### Weird")).buffer =
      ([] : List String) ++ ["### Weird"] ∧
    ∃ v, lookupF (commitState (["B"].foldl stepLine
        (stepLine ⟨[], some FieldKey.company, []⟩ ("### Weird")))).fields
      FieldKey.company = some v ∧
      containsSeg (trimL ("### Weird").data) v.data = true :=
  c9_unrecognized_heading_buffered ⟨[], some FieldKey.company, []⟩ ["B"] ("### Weird")
    FieldKey.company rfl rfl (by decide)
